import Mathlib

/-!
Verification development for the `dsrs` streaming-sketch library
(`datasketches-rs`).  The Rust sources under `src/` are shallowly embedded:
pure functions become Lean functions, fallible or panicking code returns
`Option`/`Except`/`ProcessResult`.  The native datasketches-cpp engine is an
external collaborator (its code is not part of `src/`); wherever its behavior
matters it is modelled from the specification, with a doc comment starting
`Modelled from the spec:` marking each such definition.
-/

namespace Dsrs

/-- A byte line: the program processes byte sequences (Rust byte slices, one
input line with terminators stripped).  Bytes are modelled as naturals. -/
abbrev Line := List Nat

/-- Result of running a code path that may terminate the whole process
(a Rust panic, a failed assertion, or an uncaught C++ exception crossing a
non-Result cxx bridge). -/
inductive ProcessResult (α : Type) where
  | ok (value : α)
  | crashed
deriving DecidableEq

/-- From src/src/error.rs: the typed error surfaced to callers. -/
inductive DataSketchesError where
  | CXXError (msg : String)
  | DecodeError (msg : String)
deriving DecidableEq

/-- Modelled from the spec: the serialized sketch byte format is opaque and
engine-defined (the datasketches-cpp engine is an external collaborator, not
under `src/`); the spec's only contract for it is round-trip fidelity and a
typed failure on structurally invalid input.  We model it as a
length-prefixed concatenation of the engine state: an injective encoding
with an executable partial inverse. -/
def encodeLines : List Line → Line
  | [] => []
  | l :: rest => l.length :: (l ++ encodeLines rest)

/-- Modelled from the spec: fuel-bounded structural decoder for `encodeLines`;
it fails (the engine's decode exception) on truncated or junk input.  The
fuel argument only makes the recursion structural; `decodeLines` supplies
enough fuel for every input. -/
def decodeLinesFuel : Nat → Line → Except String (List Line)
  | _, [] => .ok []
  | 0, _ :: _ => .error "truncated"
  | fuel + 1, n :: rest =>
      if n ≤ rest.length then
        (decodeLinesFuel fuel (rest.drop n)).map (fun ls => rest.take n :: ls)
      else .error "truncated"

/-- Modelled from the spec: decoder for the engine-defined byte format. -/
def decodeLines (buf : Line) : Except String (List Line) :=
  decodeLinesFuel buf.length buf

/-! ### CPC sketch (src/src/wrapper/cpc.rs) -/

/-- Modelled from the spec: one distinct-count observation of the idealized
engine — record the value once, in arrival order, keeping duplicates out. -/
def insertDistinct (acc : List Line) (v : Line) : List Line :=
  if v ∈ acc then acc else acc ++ [v]

/-- The CPC distinct-count sketch handle.  Modelled from the spec: the opaque
engine instance it owns is idealized as the exact insertion-ordered list of
distinct observed values (the engine is specified only through
create/update/estimate/serialize/deserialize and union, with estimates
within an error envelope; the idealized engine is exact). -/
structure CpcSketch where
  inner : List Line
deriving DecidableEq

namespace CpcSketch

/-- Create a CPC sketch representing the empty set. -/
def new : CpcSketch := ⟨[]⟩

/-- Observe a new value.  Two values are equal iff their byte sequences are
identical; the idealized engine records each distinct value once. -/
def update (s : CpcSketch) (value : Line) : CpcSketch :=
  ⟨insertDistinct s.inner value⟩

/-- Current estimate of distinct values seen (exact in the idealized engine). -/
def estimate (s : CpcSketch) : Nat := s.inner.length

/-- Serialize to the engine-defined byte format. -/
def serialize (s : CpcSketch) : Line := encodeLines s.inner

/-- From src/src/wrapper/cpc.rs: deserialization propagates the engine's
failure on structurally invalid input as a typed `DataSketchesError`
(`CXXError`, via the From impl in src/src/error.rs). -/
def deserialize (buf : Line) : Except DataSketchesError CpcSketch :=
  match decodeLines buf with
  | .ok vs => .ok ⟨vs⟩
  | .error e => .error (.CXXError e)

end CpcSketch

/-- The CPC union accumulator.  Modelled from the spec: absorbing a sketch
adds its distinct values to the running union. -/
structure CpcUnion where
  inner : List Line
deriving DecidableEq

namespace CpcUnion

/-- Create a CPC union over nothing (the empty set). -/
def new : CpcUnion := ⟨[]⟩

/-- Absorb one sketch into the union (ownership of the sketch transfers). -/
def merge (u : CpcUnion) (s : CpcSketch) : CpcUnion :=
  ⟨s.inner.foldl insertDistinct u.inner⟩

/-- Snapshot the current unioned sketch as a copy. -/
def sketch (u : CpcUnion) : CpcSketch := ⟨u.inner⟩

end CpcUnion

/-! ### Theta sketch (src/src/wrapper/theta.rs) -/

/-- The immutable (static) Theta sketch.  Modelled from the spec: idealized
as the exact list of distinct observed values. -/
structure StaticThetaSketch where
  inner : List Line
deriving DecidableEq

namespace StaticThetaSketch

/-- Current estimate of distinct values seen (exact in the idealized engine). -/
def estimate (s : StaticThetaSketch) : Nat := s.inner.length

/-- Serialize to the engine-defined byte format. -/
def serialize (s : StaticThetaSketch) : Line := encodeLines s.inner

/-- From src/src/wrapper/theta.rs: deserialization propagates the engine's
failure on structurally invalid input as a typed `DataSketchesError`. -/
def deserialize (buf : Line) : Except DataSketchesError StaticThetaSketch :=
  match decodeLines buf with
  | .ok vs => .ok ⟨vs⟩
  | .error e => .error (.CXXError e)

end StaticThetaSketch

/-- The running Theta intersection accumulator.  Modelled from the spec: it
starts representing the universal set, which the engine reports as a null
snapshot; `none` is that pre-first-merge universal state. -/
structure ThetaIntersection where
  inner : Option (List Line)
deriving DecidableEq

namespace ThetaIntersection

/-- Create a theta intersection (universal set, nothing absorbed yet). -/
def new : ThetaIntersection := ⟨none⟩

/-- Absorb one static sketch into the running intersection. -/
def merge (i : ThetaIntersection) (s : StaticThetaSketch) : ThetaIntersection :=
  match i.inner with
  | none => ⟨some s.inner⟩
  | some t => ⟨some (t.filter (fun v => v ∈ s.inner))⟩

/-- From src/src/wrapper/theta.rs ThetaIntersection::sketch: the engine
returns a null pointer while the accumulator still represents the universal
set, and the wrapper turns that into `None`. -/
def sketch (i : ThetaIntersection) : Option StaticThetaSketch :=
  i.inner.map (fun t => ⟨t⟩)

end ThetaIntersection

/-! ### HLL sketch (src/src/wrapper/hll.rs) -/

/-- The HLL sketch handle.  Modelled from the spec: idealized as the exact
list of distinct observed values. -/
structure HLLSketch where
  inner : List Line
deriving DecidableEq

namespace HLLSketch

/-- Current estimate of distinct values seen (exact in the idealized engine). -/
def estimate (s : HLLSketch) : Nat := s.inner.length

/-- Serialize to the engine-defined byte format. -/
def serialize (s : HLLSketch) : Line := encodeLines s.inner

/-- From src/src/wrapper/hll.rs: `deserialize` returns `Self`, not a Result;
the ffi declaration has no Result either, so a C++ decode exception crossing
the bridge terminates the process (the TODO comment in the source admits
this).  An invalid buffer therefore yields `ProcessResult.crashed`. -/
def deserialize (buf : Line) : ProcessResult HLLSketch :=
  match decodeLines buf with
  | .ok vs => .ok ⟨vs⟩
  | .error _ => .crashed

end HLLSketch

/-! ### KLL quantile sketch (src/src/wrapper/kll.rs) -/

/-- The KLL quantile sketch handle.  Modelled from the spec: idealized as the
exact list of observed samples in arrival order; the f32 sample type is
idealized as naturals (the claims settled here concern preservation of the
derived statistics, not float arithmetic). -/
structure KllFloatSketch where
  inner : List Nat
deriving DecidableEq

/-- Minimum of a list of naturals, `none` when empty (models the NaN the
engine returns for an empty sketch). -/
def listMin : List Nat → Option Nat
  | [] => none
  | v :: rest =>
      some (match listMin rest with
            | none => v
            | some m => min v m)

/-- Maximum of a list of naturals, `none` when empty. -/
def listMax : List Nat → Option Nat
  | [] => none
  | v :: rest =>
      some (match listMax rest with
            | none => v
            | some m => max v m)

/-- Insert a value into an ascending-sorted list, keeping it sorted. -/
def insertSorted (v : Nat) : List Nat → List Nat
  | [] => [v]
  | w :: rest => if v ≤ w then v :: w :: rest else w :: insertSorted v rest

/-- Insertion sort, used to read quantiles off the idealized sample list. -/
def sortNat (l : List Nat) : List Nat := l.foldr insertSorted []

namespace KllFloatSketch

/-- Create a KLL sketch with the default parameter. -/
def new : KllFloatSketch := ⟨[]⟩

/-- Updates this sketch with the given value. -/
def update (s : KllFloatSketch) (value : Nat) : KllFloatSketch :=
  ⟨s.inner ++ [value]⟩

/-- Returns the min value of the stream (`none` models NaN when empty). -/
def get_min_value (s : KllFloatSketch) : Option Nat := listMin s.inner

/-- Returns the max value of the stream (`none` models NaN when empty). -/
def get_max_value (s : KllFloatSketch) : Option Nat := listMax s.inner

/-- Returns the value at the given fractional position of the hypothetical
sorted stream (idealized exact empirical quantile). -/
def get_quantile (s : KllFloatSketch) (fraction : ℚ) : Option Nat :=
  (sortNat s.inner).get?
    (min (Int.toNat ⌊fraction * (s.inner.length : ℚ)⌋) (s.inner.length - 1))

/-- Returns the length of the input stream. -/
def get_n (s : KllFloatSketch) : Nat := s.inner.length

/-- Serialize to the engine-defined byte format (a one-byte preamble and the
sample payload, in the idealized engine). -/
def serialize (s : KllFloatSketch) : Line := 0 :: s.inner

/-- From src/src/wrapper/kll.rs: deserialization propagates the engine's
failure on structurally invalid input as a typed `DataSketchesError`. -/
def deserialize (buf : Line) : Except DataSketchesError KllFloatSketch :=
  match buf with
  | 0 :: rest => .ok ⟨rest⟩
  | _ => .error (.CXXError "bad preamble")

end KllFloatSketch

/-! ### Line reducers (src/src/counters.rs, src/src/stream_reducer.rs)

`reduce_stream` feeds a reducer one terminator-stripped byte line at a time;
running a reducer is a left fold over the line list. -/

/-- From src/src/counters.rs: the Counter reducer wraps one CPC sketch.
Counter::serialize base64-encodes the engine bytes with no padding or
newlines; the external base64 codec's contract is lossless transport of
arbitrary bytes as newline-free text, and is modelled as the identity on
byte sequences. -/
structure Counter where
  sketch : CpcSketch
deriving DecidableEq

namespace Counter

/-- From the Default impl: a Counter over a fresh CPC sketch. -/
def default : Counter := ⟨CpcSketch.new⟩

/-- Serializes to base64 text (modelled as the raw engine bytes). -/
def serialize (c : Counter) : Line := c.sketch.serialize

/-- Deserializes from base64 text; base64 decoding is modelled as the
identity, and the engine decode failure surfaces as the typed error. -/
def deserialize (s : Line) : Except DataSketchesError Counter :=
  match CpcSketch.deserialize s with
  | .ok sk => .ok ⟨sk⟩
  | .error e => .error e

/-- Returns the current row estimate. -/
def estimate (c : Counter) : Nat := c.sketch.estimate

/-- The LineReducer impl: each line is one observation. -/
def read_line (c : Counter) (line : Line) : Counter :=
  ⟨c.sketch.update line⟩

end Counter

/-- From src/src/counters.rs: the Merger reducer wraps one CPC union. -/
structure Merger where
  sketch : CpcUnion
deriving DecidableEq

namespace Merger

/-- From the Default impl: a Merger over a fresh CPC union. -/
def default : Merger := ⟨CpcUnion.new⟩

/-- Snapshot the running union as a Counter. -/
def counter (m : Merger) : Counter := ⟨m.sketch.sketch⟩

/-- The LineReducer impl: each line is a serialized counter; a malformed
line is a fatal error (the source calls `expect`, which panics). -/
def read_line (m : Merger) (line : Line) : ProcessResult Merger :=
  match Counter.deserialize line with
  | .ok c => .ok ⟨m.sketch.merge c.sketch⟩
  | .error _ => .crashed

end Merger

/-- Running a Counter over a line stream (reduce_stream with Counter). -/
def runCounter (lines : List Line) : Counter :=
  lines.foldl Counter.read_line Counter.default

/-- Running a Merger over a line stream (reduce_stream with Merger); a panic
on any line crashes the run. -/
def runMerger (lines : List Line) : ProcessResult Merger :=
  lines.foldl
    (fun acc line =>
      match acc with
      | .crashed => .crashed
      | .ok m => m.read_line line)
    (.ok Merger.default)

/-- From src/src/counters.rs (via the memchr crate): index of the first
occurrence of `needle` in a byte line. -/
def memchr (needle : Nat) : Line → Option Nat
  | [] => none
  | b :: rest => if b = needle then some 0 else (memchr needle rest).map (· + 1)

/-- Association-list lookup by key, mirroring HashMap get: the value stored
under a key, if present. -/
def alookup {α : Type} (l : List (Line × α)) (key : Line) : Option α :=
  (l.find? (fun e => decide (e.1 = key))).map (·.2)

/-- From src/src/counters.rs: the keyed Counter reducer, a map from the
first-space-delimited key token to an independent Counter.  The HashMap is
modelled as an association list with unique keys. -/
structure KeyedCounter where
  sketches : List (Line × Counter)
deriving DecidableEq

namespace KeyedCounter

/-- From the Default derive: the empty map. -/
def default : KeyedCounter := ⟨[]⟩

/-- The LineReducer impl: split at the first space (byte 32); a line with no
space panics (`none`); otherwise the remainder is folded into the key's
Counter, inserting a fresh one on first observation of the key. -/
def read_line (st : KeyedCounter) (line : Line) : Option KeyedCounter :=
  match memchr 32 line with
  | none => none
  | some ix =>
      let key := line.take ix
      let value := line.drop (ix + 1)
      let sks :=
        if (alookup st.sketches key).isSome then st.sketches
        else st.sketches ++ [(key, Counter.default)]
      some ⟨sks.map (fun e => if e.1 = key then (e.1, e.2.read_line value) else e)⟩

end KeyedCounter

/-- From src/src/counters.rs: the keyed Merger reducer. -/
structure KeyedMerger where
  sketches : List (Line × Merger)
deriving DecidableEq

namespace KeyedMerger

/-- From the Default derive: the empty map. -/
def default : KeyedMerger := ⟨[]⟩

/-- The LineReducer impl: same delimiter contract as KeyedCounter; the value
is folded into the key's Merger, whose own decode failure also crashes. -/
def read_line (st : KeyedMerger) (line : Line) : ProcessResult KeyedMerger :=
  match memchr 32 line with
  | none => .crashed
  | some ix =>
      let key := line.take ix
      let value := line.drop (ix + 1)
      let sks :=
        if (alookup st.sketches key).isSome then st.sketches
        else st.sketches ++ [(key, Merger.default)]
      match Merger.read_line ((alookup sks key).getD Merger.default) value with
      | .crashed => .crashed
      | .ok m => .ok ⟨sks.map (fun e => if e.1 = key then (e.1, m) else e)⟩

end KeyedMerger

/-! ### Heavy-hitter ownership bridge (src/src/wrapper/hh.rs) -/

/-- Modelled from the spec: the opaque heavy-hitter counting engine.  It
identifies keys by the interned addresses handed to it; `updates` is the
observational log of (address, weight) pairs received, `rows` the currently
retained rows (address, lower bound, upper bound), and `total_weight` and
`offset` its internal weight accounting. -/
structure HhEngine where
  updates : List (Nat × Nat)
  rows : List (Nat × Nat × Nat)
  total_weight : Nat
  offset : Nat
deriving DecidableEq

/-- Modelled from the spec: the engine's decrement-and-evict
(Misra-Gries/SMED) behavior at one weighted update, given the pre-update
engine state, the updated address and the weight — which rows it retains
afterwards, which addresses it evicts (for each of which it synchronously
invokes the removal callback inside the triggering update call, per the
spec's reentrancy contract), and by how much its error offset grows on a
purge.  All three decisions are the engine's own and opaque; the
development is parameterized over them, so every universally quantified
theorem holds whatever the engine decides, and counterexamples exhibit a
policy within this contract. -/
structure EnginePolicy where
  newRows : HhEngine → Nat → Nat → List (Nat × Nat × Nat)
  evicted : HhEngine → Nat → Nat → List Nat
  offsetBump : HhEngine → Nat → Nat → Nat

namespace HhEngine

/-- Modelled from the spec: the engine's weighted-update entry point.  The
update's weight always joins the total stream weight; row retention and
offset growth follow the engine's own policy. -/
def update (pol : EnginePolicy) (e : HhEngine) (addr weight : Nat) : HhEngine :=
  { updates := e.updates ++ [(addr, weight)],
    rows := pol.newRows e addr weight,
    total_weight := e.total_weight + weight,
    offset := e.offset + pol.offsetBump e addr weight }

/-- The engine's set_weights entry point (bridge declaration in
src/src/bridge.rs): overwrite the weight accounting. -/
def set_weights (e : HhEngine) (total_weight offset : Nat) : HhEngine :=
  { e with total_weight := total_weight, offset := offset }

end HhEngine

/-- A concrete engine policy for witnesses: retains no rows, never evicts
and never bumps the offset. -/
def idlePolicy : EnginePolicy :=
  ⟨fun _ _ _ => [], fun _ _ _ => [], fun _ _ _ => 0⟩

/-- A concrete engine policy whose purge evicts the stored address 0 at the
second update it sees, as the decrement-and-evict policy does when the
sketch fills. -/
def evictAtSecondUpdate : EnginePolicy :=
  ⟨fun _ _ _ => [],
   fun e _ _ => if e.updates.length = 1 then [0] else [],
   fun _ _ _ => 0⟩

/-- A concrete engine policy whose purge raises the error offset by 5 at
every update, as decrement-and-evict does when it decrements counters. -/
def bumpOffsetPolicy : EnginePolicy :=
  ⟨fun _ _ _ => [], fun _ _ _ => [], fun _ _ _ => 5⟩

/-- From src/src/wrapper/hh.rs: the heavy-hitter sketch.  `intern` is the
interning table that owns one heap-stable copy of each distinct observed
key; it is modelled as a list of (stable address, owned byte content)
entries.  `nextAddr` models the allocator: a fresh ThinBox allocation
receives an address distinct from every live entry's address. -/
structure HhSketch where
  inner : HhEngine
  intern : List (Nat × Line)
  nextAddr : Nat
  lg2_k : Nat
deriving DecidableEq

/-- Content lookup in the interning table: the stable address of the entry
whose bytes equal `value`, if interned. -/
def internGet (intern : List (Nat × Line)) (value : Line) : Option Nat :=
  (intern.find? (fun e => decide (e.2 = value))).map (·.1)

/-- Address lookup in the interning table: the byte content stored at a
given stable address, if any (models dereferencing a ThinRef). -/
def internAddrGet (intern : List (Nat × Line)) (addr : Nat) : Option Line :=
  (intern.find? (fun e => decide (e.1 = addr))).map (·.2)

namespace HhSketch

/-- Create a HH sketch representing the empty set. -/
def new (lg2_k : Nat) : HhSketch :=
  { inner := ⟨[], [], 0, 0⟩, intern := [], nextAddr := 0, lg2_k := lg2_k }

/-- From src/src/wrapper/hh.rs HhSketch::update: look the value up by
content in the interning table; if present reuse its stable address, if
absent insert one owned copy at a fresh stable address; pass the address
and the weight to the engine.  The engine call may evict entries
(decrement-and-evict): for every address the engine's policy evicts it
synchronously invokes the removal callback, which deletes that address's
entry from the interning table (the successful-assert path of
`remove_from_hashset`; a correct engine only evicts addresses it was
handed and that are still interned). -/
def update (pol : EnginePolicy) (s : HhSketch) (value : Line) (weight : Nat) :
    HhSketch :=
  match internGet s.intern value with
  | some addr =>
      { s with
          inner := s.inner.update pol addr weight,
          intern := s.intern.filter
            (fun e => decide (e.1 ∉ pol.evicted s.inner addr weight)) }
  | none =>
      { s with
          inner := s.inner.update pol s.nextAddr weight,
          intern := (s.intern ++ [(s.nextAddr, value)]).filter
            (fun e => decide (e.1 ∉ pol.evicted s.inner s.nextAddr weight)),
          nextAddr := s.nextAddr + 1 }

/-- From src/src/wrapper/hh.rs HhSketch::merge: capture the combined total
weight first, replay each of the other engine's retained rows as a weighted
update of self keyed by the row's dereferenced bytes with the row's lower
bound as the weight, read self's offset after the replay (replay updates
can purge and raise it), then overwrite self's weight accounting.
`thin_row_to_owned`s unchecked address dereference is modelled as `none`
(undefined behavior in the source) when a row's address is not in the other
sketch's interning table. -/
def merge (pol : EnginePolicy) (self other : HhSketch) : Option HhSketch :=
  let total_weight := self.inner.total_weight + other.inner.total_weight
  (other.inner.rows.foldlM
      (fun acc row =>
        (internAddrGet other.intern row.1).map
          (fun key => HhSketch.update pol acc key row.2.1))
      self).map
    (fun self2 =>
      { self2 with
          inner := self2.inner.set_weights total_weight
            (self2.inner.offset + other.inner.offset) })

end HhSketch

/-- From src/src/wrapper/hh.rs `remove_from_hashset`, the eviction callback
the engine invokes.  The raw addresses of the source are modelled by what
they point to: `table` is the interning hash set viewed as the finite set of
its entries' byte contents, and `evicted` is the byte content at the evicted
address.  The callback removes the entry by content equality and asserts the
removal succeeded; a failed assertion terminates the process. -/
def remove_from_hashset (table : Finset Line) (evicted : Line) : ProcessResult (Finset Line) :=
  if evicted ∈ table then .ok (table.erase evicted) else .crashed

/-! ### Heavy-hitter reducer and sizing (src/src/counters.rs, src/src/main.rs) -/

/-- Fuel-bounded bit length of a natural: the number of significant binary
digits, so that `64 - bitLen x` models `u64::leading_zeros`. -/
def bitLenFuel : Nat → Nat → Nat
  | _, 0 => 0
  | 0, _ + 1 => 0
  | fuel + 1, n + 1 => bitLenFuel fuel ((n + 1) / 2) + 1

/-- Bit length of a natural (the fuel is only to keep the recursion
structural; `x` fuel always suffices). -/
def bitLen (x : Nat) : Nat := bitLenFuel x x

/-- From src/src/counters.rs log2_floor: the bit width of u64. -/
def num_bits : Nat := 64

/-- Models `u64::leading_zeros` for `x < 2 ^ 64`. -/
def leading_zeros (x : Nat) : Nat := num_bits - bitLen x

/-- From src/src/counters.rs `log2_floor`: computes
`num_bits - x.leading_zeros() - 1`, asserting `x > 0`; the failed assertion
(a panic) is modelled by `none`. -/
def log2_floor (x : Nat) : Option Nat :=
  if 0 < x then some (num_bits - leading_zeros x - 1) else none

/-- From src/src/counters.rs: the HeavyHitter reducer. -/
structure HeavyHitter where
  sketch : HhSketch
  k : Nat
deriving DecidableEq

namespace HeavyHitter

/-- From src/src/counters.rs HeavyHitter::new: size the sketch as
`log2_floor(k).max(1) + 2`; `none` propagates the panic from log2_floor's
assertion when `k = 0`. -/
def new (k : Nat) : Option HeavyHitter :=
  (log2_floor k).map (fun lf => { sketch := HhSketch.new (max lf 1 + 2), k := k })

/-- The LineReducer impl: each line is one observation of weight 1 (the
engine's eviction policy is a parameter, as in HhSketch.update). -/
def read_line (pol : EnginePolicy) (h : HeavyHitter) (line : Line) : HeavyHitter :=
  { h with sketch := HhSketch.update pol h.sketch line 1 }

end HeavyHitter

/-- Outcome of the `--hh k` branch of main (src/src/main.rs). -/
inductive HhCliOutcome where
  | earlyReturn
  | ran (reducer : HeavyHitter)
deriving DecidableEq

/-- From src/src/main.rs (hh branch): `k == 0` returns before the reducer is
ever constructed; otherwise the stream is reduced with `HeavyHitter::new k`.
A `none` result models a panic. -/
def mainHh (pol : EnginePolicy) (k : Nat) (lines : List Line) : Option HhCliOutcome :=
  if k = 0 then some .earlyReturn
  else (HeavyHitter.new k).map
    (fun h => .ran (lines.foldl (HeavyHitter.read_line pol) h))

/-- The stable address `HhSketch.update` hands to the engine for a value:
the interned entry's address if the content is present, else the fresh
address of the newly inserted copy. -/
def handAddr (s : HhSketch) (value : Line) : Nat :=
  (internGet s.intern value).getD s.nextAddr

/-- Wellformedness of the interning table: one entry per distinct byte
content, and every live address is below the allocator's next address. -/
def InternWF (s : HhSketch) : Prop :=
  (s.intern.map (fun e => e.2)).Nodup ∧ ∀ e ∈ s.intern, e.1 < s.nextAddr

/-- Running a sequence of weighted updates against a heavy-hitter sketch,
under a given engine policy. -/
def runUpdates (pol : EnginePolicy) (s : HhSketch) (us : List (Line × Nat)) : HhSketch :=
  us.foldl (fun t vw => HhSketch.update pol t vw.1 vw.2) s

/-- The (address, weight) pairs a sequence of updates hands to the engine. -/
def handedLog (pol : EnginePolicy) : HhSketch → List (Line × Nat) → List (Nat × Nat)
  | _, [] => []
  | s, vw :: rest =>
      (handAddr s vw.1, vw.2) :: handedLog pol (HhSketch.update pol s vw.1 vw.2) rest

/-! ## Supporting lemmas for the interning table -/

theorem decodeLinesFuel_encodeLines :
    ∀ (ls : List Line) (fuel : Nat), (encodeLines ls).length ≤ fuel →
      decodeLinesFuel fuel (encodeLines ls) = .ok ls := by
  intro ls
  induction ls with
  | nil => intro fuel _; cases fuel <;> rfl
  | cons l rest ih =>
      intro fuel hf
      simp only [encodeLines, List.length_cons, List.length_append] at hf
      cases fuel with
      | zero => omega
      | succ f =>
          have hle : l.length ≤ (l ++ encodeLines rest).length := by
            simp [List.length_append]
          have hdrop : (l ++ encodeLines rest).drop l.length = encodeLines rest :=
            List.drop_left l (encodeLines rest)
          have htake : (l ++ encodeLines rest).take l.length = l :=
            List.take_left l (encodeLines rest)
          have hf2 : (encodeLines rest).length ≤ f := by omega
          simp [encodeLines, decodeLinesFuel, hle, hdrop, htake, ih f hf2, Except.map]

theorem decodeLines_encodeLines (ls : List Line) :
    decodeLines (encodeLines ls) = .ok ls :=
  decodeLinesFuel_encodeLines ls (encodeLines ls).length le_rfl


theorem internWF_new (lg : Nat) : InternWF (HhSketch.new lg) := by
  constructor <;> simp [HhSketch.new]

theorem internGet_none_iff (intern : List (Nat × Line)) (v : Line) :
    internGet intern v = none ↔ ∀ e ∈ intern, e.2 ≠ v := by
  simp [internGet, List.find?_eq_none]

theorem internGet_some_mem (intern : List (Nat × Line)) (v : Line) (a : Nat)
    (h : internGet intern v = some a) : (a, v) ∈ intern := by
  unfold internGet at h
  cases hf : intern.find? (fun e => decide (e.2 = v)) with
  | none => rw [hf] at h; simp at h
  | some e =>
      rw [hf] at h
      simp only [Option.map_some'] at h
      injection h with h
      have hmem := List.mem_of_find?_eq_some hf
      have hpred := List.find?_some hf
      simp only [decide_eq_true_eq] at hpred
      have he : e = (a, v) := by
        cases e with
        | mk e1 e2 => simp_all
      rw [← he]
      exact hmem

theorem intern_content_unique (l : List (Nat × Line))
    (hnd : (l.map (fun e => e.2)).Nodup) {a1 a2 : Nat} {v : Line}
    (h1 : (a1, v) ∈ l) (h2 : (a2, v) ∈ l) : a1 = a2 := by
  have := List.inj_on_of_nodup_map hnd h1 h2 rfl
  exact congrArg Prod.fst this

theorem internGet_of_mem (l : List (Nat × Line))
    (hnd : (l.map (fun e => e.2)).Nodup) {a : Nat} {v : Line}
    (h : (a, v) ∈ l) : internGet l v = some a := by
  cases hg : internGet l v with
  | none => exact absurd rfl ((internGet_none_iff l v).mp hg (a, v) h)
  | some a2 =>
      have h2 := internGet_some_mem l v a2 hg
      rw [intern_content_unique l hnd h2 h]

theorem update_updates_log (pol : EnginePolicy) (s : HhSketch) (v : Line) (w : Nat) :
    (HhSketch.update pol s v w).inner.updates =
      s.inner.updates ++ [(handAddr s v, w)] := by
  unfold HhSketch.update handAddr
  cases h : internGet s.intern v <;> simp [h, HhEngine.update]

theorem update_total_weight (pol : EnginePolicy) (s : HhSketch) (v : Line) (w : Nat) :
    (HhSketch.update pol s v w).inner.total_weight = s.inner.total_weight + w := by
  unfold HhSketch.update
  cases h : internGet s.intern v <;> simp [h, HhEngine.update]

theorem update_intern_present (pol : EnginePolicy) (s : HhSketch) (v : Line)
    (w : Nat) {a : Nat} (h : internGet s.intern v = some a) :
    (HhSketch.update pol s v w).intern =
      s.intern.filter (fun e => decide (e.1 ∉ pol.evicted s.inner a w)) := by
  unfold HhSketch.update
  rw [h]

theorem update_intern_absent (pol : EnginePolicy) (s : HhSketch) (v : Line)
    (w : Nat) (h : internGet s.intern v = none) :
    (HhSketch.update pol s v w).intern =
      (s.intern ++ [(s.nextAddr, v)]).filter
        (fun e => decide (e.1 ∉ pol.evicted s.inner s.nextAddr w)) := by
  unfold HhSketch.update
  rw [h]

theorem update_intern_subset (pol : EnginePolicy) (s : HhSketch) (v : Line) (w : Nat) :
    ∀ e ∈ (HhSketch.update pol s v w).intern,
      e ∈ s.intern ∨ e = (s.nextAddr, v) := by
  intro e he
  cases h : internGet s.intern v with
  | some a =>
      rw [update_intern_present pol s v w h] at he
      exact Or.inl (List.mem_of_mem_filter he)
  | none =>
      rw [update_intern_absent pol s v w h] at he
      have h2 := List.mem_of_mem_filter he
      rcases List.mem_append.mp h2 with h3 | h3
      · exact Or.inl h3
      · simp only [List.mem_singleton] at h3
        exact Or.inr h3

theorem internWF_update (pol : EnginePolicy) (s : HhSketch) (v : Line) (w : Nat)
    (hwf : InternWF s) : InternWF (HhSketch.update pol s v w) := by
  have hnext : (HhSketch.update pol s v w).nextAddr = s.nextAddr ∨
      (HhSketch.update pol s v w).nextAddr = s.nextAddr + 1 := by
    unfold HhSketch.update
    cases h : internGet s.intern v
    · exact Or.inr rfl
    · exact Or.inl rfl
  cases h : internGet s.intern v with
  | some a =>
      have hintern := update_intern_present pol s v w h
      constructor
      · rw [hintern]
        exact List.Nodup.sublist
          ((List.filter_sublist s.intern).map (fun e => e.2)) hwf.1
      · intro e he
        rw [hintern] at he
        have h2 := hwf.2 e (List.mem_of_mem_filter he)
        rcases hnext with h3 | h3 <;> rw [h3] <;> omega
  | none =>
      have hintern := update_intern_absent pol s v w h
      have hnone := (internGet_none_iff s.intern v).mp h
      have hndapp : ((s.intern ++ [(s.nextAddr, v)]).map (fun e => e.2)).Nodup := by
        simp only [List.map_append, List.map_cons, List.map_nil]
        rw [List.nodup_append]
        refine ⟨hwf.1, List.nodup_singleton v, ?_⟩
        intro x hx hx2
        simp only [List.mem_singleton] at hx2
        subst hx2
        obtain ⟨e, he, he2⟩ := List.mem_map.mp hx
        exact hnone e he he2
      constructor
      · rw [hintern]
        exact List.Nodup.sublist
          ((List.filter_sublist (s.intern ++ [(s.nextAddr, v)])).map (fun e => e.2))
          hndapp
      · intro e he
        rw [hintern] at he
        have h2 := List.mem_of_mem_filter he
        have hup : (HhSketch.update pol s v w).nextAddr = s.nextAddr + 1 := by
          unfold HhSketch.update
          rw [h]
        rw [hup]
        rcases List.mem_append.mp h2 with h3 | h3
        · have := hwf.2 e h3
          omega
        · simp only [List.mem_singleton] at h3
          subst h3
          simp

theorem internGet_update_stable (pol : EnginePolicy) (s : HhSketch) (v : Line)
    (w : Nat) (u : Line) (a : Nat) (hwf : InternWF s)
    (h : internGet s.intern u = some a) :
    internGet (HhSketch.update pol s v w).intern u = some a ∨
    internGet (HhSketch.update pol s v w).intern u = none := by
  have hmem : (a, u) ∈ s.intern := internGet_some_mem s.intern u a h
  cases hg : internGet (HhSketch.update pol s v w).intern u with
  | none => exact Or.inr rfl
  | some a2 =>
      left
      have h2 := internGet_some_mem _ _ _ hg
      rcases update_intern_subset pol s v w _ h2 with h3 | h3
      · exact congrArg some (intern_content_unique s.intern hwf.1 h3 hmem)
      · injection h3 with h4 h5
        subst h5
        cases hv : internGet s.intern u with
        | none => exact absurd (h.symm.trans hv) (by simp)
        | some b =>
            have h6 := update_intern_present pol s u w hv
            rw [h6] at h2
            exact congrArg some
              (intern_content_unique s.intern hwf.1 (List.mem_of_mem_filter h2) hmem)

theorem runUpdates_cons (pol : EnginePolicy) (s : HhSketch) (vw : Line × Nat)
    (rest : List (Line × Nat)) :
    runUpdates pol s (vw :: rest) =
      runUpdates pol (HhSketch.update pol s vw.1 vw.2) rest := rfl

theorem runUpdates_wf (pol : EnginePolicy) (us : List (Line × Nat)) :
    ∀ s, InternWF s → InternWF (runUpdates pol s us) := by
  induction us with
  | nil => intro s h; exact h
  | cons vw rest ih =>
      intro s h
      rw [runUpdates_cons]
      exact ih _ (internWF_update pol s vw.1 vw.2 h)

theorem runUpdates_log (pol : EnginePolicy) (us : List (Line × Nat)) :
    ∀ s, (runUpdates pol s us).inner.updates =
      s.inner.updates ++ handedLog pol s us := by
  induction us with
  | nil => intro s; simp [runUpdates, handedLog]
  | cons vw rest ih =>
      intro s
      rw [runUpdates_cons, ih, handedLog, update_updates_log]
      simp

theorem zip_handedLog_weights (pol : EnginePolicy) (us : List (Line × Nat)) :
    ∀ s, ∀ p ∈ us.zip (handedLog pol s us), p.2.2 = p.1.2 := by
  induction us with
  | nil => intro s p hp; simp [handedLog] at hp
  | cons vw rest ih =>
      intro s p hp
      rw [handedLog, List.zip_cons_cons] at hp
      rcases List.mem_cons.mp hp with hp | hp
      · subst hp
        rfl
      · exact ih (HhSketch.update pol s vw.1 vw.2) p hp

/-! ## Claims -/

/-- Claim C2: round-trip law — for every sketch handle of any kind (CPC,
static Theta, HLL, KLL), deserializing its serialization succeeds and yields
a handle whose estimate — and, for KLL quantile sketches, get_quantile,
get_min_value and get_max_value — exactly equals the original's. -/
theorem round_trip_law :
    (∀ h : CpcSketch, CpcSketch.deserialize h.serialize = .ok h ∧
      ∀ h2, CpcSketch.deserialize h.serialize = .ok h2 → h2.estimate = h.estimate) ∧
    (∀ h : StaticThetaSketch, StaticThetaSketch.deserialize h.serialize = .ok h ∧
      ∀ h2, StaticThetaSketch.deserialize h.serialize = .ok h2 → h2.estimate = h.estimate) ∧
    (∀ h : HLLSketch, HLLSketch.deserialize h.serialize = .ok h ∧
      ∀ h2, HLLSketch.deserialize h.serialize = .ok h2 → h2.estimate = h.estimate) ∧
    (∀ h : KllFloatSketch, KllFloatSketch.deserialize h.serialize = .ok h ∧
      ∀ h2, KllFloatSketch.deserialize h.serialize = .ok h2 →
        (∀ f : ℚ, h2.get_quantile f = h.get_quantile f) ∧
        h2.get_min_value = h.get_min_value ∧ h2.get_max_value = h.get_max_value) := by
  have hcpc : ∀ h : CpcSketch, CpcSketch.deserialize h.serialize = .ok h := by
    intro h
    simp [CpcSketch.deserialize, CpcSketch.serialize, decodeLines_encodeLines]
  have htheta : ∀ h : StaticThetaSketch,
      StaticThetaSketch.deserialize h.serialize = .ok h := by
    intro h
    simp [StaticThetaSketch.deserialize, StaticThetaSketch.serialize,
      decodeLines_encodeLines]
  have hhll : ∀ h : HLLSketch, HLLSketch.deserialize h.serialize = .ok h := by
    intro h
    simp [HLLSketch.deserialize, HLLSketch.serialize, decodeLines_encodeLines]
  have hkll : ∀ h : KllFloatSketch, KllFloatSketch.deserialize h.serialize = .ok h := by
    intro h
    simp [KllFloatSketch.deserialize, KllFloatSketch.serialize]
  refine ⟨fun h => ⟨hcpc h, ?_⟩, fun h => ⟨htheta h, ?_⟩,
    fun h => ⟨hhll h, ?_⟩, fun h => ⟨hkll h, ?_⟩⟩
  · intro h2 hh2
    rw [hcpc h] at hh2; injection hh2 with hh2; rw [hh2]
  · intro h2 hh2
    rw [htheta h] at hh2; injection hh2 with hh2; rw [hh2]
  · intro h2 hh2
    rw [hhll h] at hh2; injection hh2 with hh2; rw [hh2]
  · intro h2 hh2
    rw [hkll h] at hh2; injection hh2 with hh2; rw [hh2]
    exact ⟨fun _ => rfl, rfl, rfl⟩

/-- Claim C2 witness: the round-trip law applied to a concrete CPC sketch
over two distinct values and a concrete KLL sketch over three samples. -/
theorem round_trip_law_witness :
    CpcSketch.deserialize (CpcSketch.serialize ⟨[[1], [2]]⟩) = .ok ⟨[[1], [2]]⟩ ∧
    KllFloatSketch.get_min_value ⟨[3, 1, 2]⟩ = KllFloatSketch.get_min_value ⟨[3, 1, 2]⟩ :=
  ⟨(round_trip_law.1 ⟨[[1], [2]]⟩).1,
   ((round_trip_law.2.2.2 ⟨[3, 1, 2]⟩).2 ⟨[3, 1, 2]⟩
      (round_trip_law.2.2.2 ⟨[3, 1, 2]⟩).1).2.1⟩

/-- Claim C3: for every invocation of the eviction callback
`remove_from_hashset`, if the interning table contains an entry whose byte
content equals the bytes at the evicted address, exactly that entry is
removed from the table; if no such entry is present, the program aborts on
the fatal assertion rather than continuing. -/
theorem remove_from_hashset_spec (table : Finset Line) (evicted : Line) :
    (evicted ∈ table →
      remove_from_hashset table evicted = .ok (table.erase evicted) ∧
      ∀ x, x ∈ table.erase evicted ↔ x ∈ table ∧ x ≠ evicted) ∧
    (evicted ∉ table → remove_from_hashset table evicted = .crashed) := by
  constructor
  · intro h
    refine ⟨by simp [remove_from_hashset, h], ?_⟩
    intro x
    simp only [Finset.mem_erase]
    tauto
  · intro h
    simp [remove_from_hashset, h]

/-- Claim C3 witness: the callback applied to a concrete two-entry table, at
an interned content (removal succeeds) and at a content not interned (fatal
assertion). -/
theorem remove_from_hashset_spec_witness :
    remove_from_hashset {[1], [2]} [1] = .ok (({[1], [2]} : Finset Line).erase [1]) ∧
    remove_from_hashset {[1], [2]} [3] = .crashed :=
  ⟨((remove_from_hashset_spec {[1], [2]} [1]).1 (by decide)).1,
   (remove_from_hashset_spec {[1], [2]} [3]).2 (by decide)⟩

/-- Folding merges into an already-absorbing theta intersection keeps a
non-null running intersection. -/
theorem foldl_thetaIntersection_merge_some (rest : List StaticThetaSketch) :
    ∀ t : List Line,
      rest.foldl ThetaIntersection.merge ⟨some t⟩ =
        ⟨some (rest.foldl (fun t s => t.filter (fun v => v ∈ s.inner)) t)⟩ := by
  induction rest with
  | nil => intro t; rfl
  | cons s rest ih =>
      intro t
      simp only [List.foldl_cons]
      exact ih (t.filter (fun v => v ∈ s.inner))

/-- Claim C9: for every ThetaIntersection accumulator, `sketch` returns
`none` iff no handle has yet been absorbed via `merge`; after at least one
merge it returns some snapshot of the running intersection. -/
theorem theta_intersection_sketch_none_iff (ms : List StaticThetaSketch) :
    ((ms.foldl ThetaIntersection.merge ThetaIntersection.new).sketch = none ↔ ms = []) ∧
    ∀ m rest, ms = m :: rest →
      (ms.foldl ThetaIntersection.merge ThetaIntersection.new).sketch =
        some ⟨rest.foldl (fun t s => t.filter (fun v => v ∈ s.inner)) m.inner⟩ := by
  have hrun : ∀ m (rest : List StaticThetaSketch),
      ((m :: rest).foldl ThetaIntersection.merge ThetaIntersection.new).sketch =
        some ⟨rest.foldl (fun t s => t.filter (fun v => v ∈ s.inner)) m.inner⟩ := by
    intro m rest
    simp only [List.foldl_cons]
    have hstep : ThetaIntersection.merge ThetaIntersection.new m = ⟨some m.inner⟩ := rfl
    rw [hstep, foldl_thetaIntersection_merge_some]
    rfl
  cases ms with
  | nil => exact ⟨by simp [ThetaIntersection.new, ThetaIntersection.sketch], by simp⟩
  | cons m rest =>
      refine ⟨?_, ?_⟩
      · rw [hrun m rest]
        simp
      · intro m2 rest2 heq
        cases heq
        exact hrun m rest

/-- Claim C9 witness: the intersection over two concrete absorbed handles is
a non-null snapshot of their running intersection. -/
theorem theta_intersection_sketch_none_iff_witness :
    (([⟨[[1], [2]]⟩, ⟨[[2]]⟩] : List StaticThetaSketch).foldl
        ThetaIntersection.merge ThetaIntersection.new).sketch =
      some ⟨([⟨[[2]]⟩] : List StaticThetaSketch).foldl
        (fun t s => t.filter (fun v => v ∈ s.inner)) [[1], [2]]⟩ :=
  (theta_intersection_sketch_none_iff [⟨[[1], [2]]⟩, ⟨[[2]]⟩]).2 ⟨[[1], [2]]⟩ [⟨[[2]]⟩] rfl

/-- Claim C10: `HeavyHitter::new 0` panics — `log2_floor` asserts its
argument is strictly positive — so constructing the reducer with top-k zero
aborts instead of returning a reducer, while the CLI hh entry point
separately guards `k == 0` by returning before construction (whatever the
engine's eviction policy). -/
theorem heavy_hitter_new_zero (pol : EnginePolicy) (lines : List Line) :
    HeavyHitter.new 0 = none ∧ log2_floor 0 = none ∧
    mainHh pol 0 lines = some .earlyReturn :=
  ⟨rfl, rfl, rfl⟩

/-- Claim C4 counterexample: under an engine policy whose purge evicts the
stored address 0 at the second update (a decision within the engine's
decrement-and-evict contract, which removes the entry from the interning
table via the removal callback), the update sequence `[1]`, `[2]`, `[1]`
hands the engine addresses 0, 1, 2: the first and third updates have equal
byte content but are handed different stable addresses, refuting the
claim's "equal-content updates always hand the engine the same stable
address". -/
theorem hh_same_address_counterexample :
    (([([1], 1), ([2], 1), ([1], 1)] : List (Line × Nat)).map Prod.fst)[0]? =
      (([([1], 1), ([2], 1), ([1], 1)] : List (Line × Nat)).map Prod.fst)[2]? ∧
    ((runUpdates evictAtSecondUpdate (HhSketch.new 3)
        [([1], 1), ([2], 1), ([1], 1)]).inner.updates.map Prod.fst)[0]? ≠
      ((runUpdates evictAtSecondUpdate (HhSketch.new 3)
        [([1], 1), ([2], 1), ([1], 1)]).inner.updates.map Prod.fst)[2]? :=
  ⟨rfl, by decide⟩

/-- Claim C4 (amended): for every engine policy, every HhSketch and every
`update value weight` call — if an entry with byte content equal to the
value is already interned at address `a`, no new entry is inserted and `a`
is handed to the engine; if absent, exactly one owned copy is appended at
the fresh address and that address is handed (the engine call may then
evict, removing exactly the evicted addresses from the table) — so after
any sequence of updates the table holds at most one entry per distinct byte
content, the engine received exactly the handed (address, weight) pairs
with the weights passed verbatim, and an interned content keeps its stable
address for as long as it is not evicted, so equal-content updates hand the
engine the same stable address as long as no eviction of that entry
intervenes (after an eviction a re-observation re-interns the content at a
fresh address, as the counterexample shows). -/
theorem hh_update_interning (pol : EnginePolicy) (lg : Nat)
    (us : List (Line × Nat)) :
    ((runUpdates pol (HhSketch.new lg) us).intern.map (fun e => e.2)).Nodup ∧
    (runUpdates pol (HhSketch.new lg) us).inner.updates =
      handedLog pol (HhSketch.new lg) us ∧
    (∀ p ∈ us.zip (handedLog pol (HhSketch.new lg) us), p.2.2 = p.1.2) ∧
    (∀ (t : HhSketch) (v : Line) (w a : Nat), InternWF t → (a, v) ∈ t.intern →
        (HhSketch.update pol t v w).inner.updates = t.inner.updates ++ [(a, w)] ∧
        (HhSketch.update pol t v w).intern =
          t.intern.filter (fun e => decide (e.1 ∉ pol.evicted t.inner a w))) ∧
    (∀ (t : HhSketch) (v : Line) (w : Nat), internGet t.intern v = none →
        (HhSketch.update pol t v w).inner.updates =
          t.inner.updates ++ [(t.nextAddr, w)] ∧
        (HhSketch.update pol t v w).intern =
          (t.intern ++ [(t.nextAddr, v)]).filter
            (fun e => decide (e.1 ∉ pol.evicted t.inner t.nextAddr w))) ∧
    (∀ (t : HhSketch) (v : Line) (w : Nat) (u : Line) (a : Nat), InternWF t →
        internGet t.intern u = some a →
        internGet (HhSketch.update pol t v w).intern u = some a ∨
        internGet (HhSketch.update pol t v w).intern u = none) := by
  have hwf : InternWF (runUpdates pol (HhSketch.new lg) us) :=
    runUpdates_wf pol us _ (internWF_new lg)
  refine ⟨hwf.1, ?_, zip_handedLog_weights pol us _, ?_, ?_, ?_⟩
  · rw [runUpdates_log]
    simp [HhSketch.new]
  · intro t v w a htwf hamem
    have hg : internGet t.intern v = some a := internGet_of_mem t.intern htwf.1 hamem
    constructor
    · rw [update_updates_log]
      unfold handAddr
      rw [hg]
      rfl
    · exact update_intern_present pol t v w hg
  · intro t v w hg
    constructor
    · rw [update_updates_log]
      unfold handAddr
      rw [hg]
      rfl
    · exact update_intern_absent pol t v w hg
  · intro t v w u a htwf hga
    exact internGet_update_stable pol t v w u a htwf hga

/-- Claim C4 witness: three concrete updates under the never-evicting
policy keep the interning table duplicate-free, and an interned content's
stable address survives an update of a different value. -/
theorem hh_update_interning_witness :
    ((runUpdates idlePolicy (HhSketch.new 3)
        [([1], 1), ([2], 5), ([1], 7)]).intern.map (fun e => e.2)).Nodup ∧
    (internGet (HhSketch.update idlePolicy
        ⟨⟨[], [], 0, 0⟩, [(0, [1])], 1, 3⟩ [2] 1).intern [1] = some 0 ∨
     internGet (HhSketch.update idlePolicy
        ⟨⟨[], [], 0, 0⟩, [(0, [1])], 1, 3⟩ [2] 1).intern [1] = none) :=
  ⟨(hh_update_interning idlePolicy 3 [([1], 1), ([2], 5), ([1], 7)]).1,
   (hh_update_interning idlePolicy 3 []).2.2.2.2.2
     ⟨⟨[], [], 0, 0⟩, [(0, [1])], 1, 3⟩ [2] 1 [1] 0 ⟨by decide, by decide⟩ rfl⟩


/-- The fuel-bounded bit length is exact whenever the fuel covers the
argument: a positive `n` satisfies
`2 ^ (bitLenFuel fuel n - 1) ≤ n < 2 ^ bitLenFuel fuel n`. -/
theorem bitLenFuel_spec :
    ∀ fuel n, n ≤ fuel → 0 < n →
      0 < bitLenFuel fuel n ∧ 2 ^ (bitLenFuel fuel n - 1) ≤ n ∧
        n < 2 ^ bitLenFuel fuel n := by
  intro fuel
  induction fuel with
  | zero => intro n hn hpos; omega
  | succ f ih =>
      intro n hn hpos
      match n, hpos with
      | m + 1, _ =>
        by_cases hq : (m + 1) / 2 = 0
        · have hm : m = 0 := by omega
          subst hm
          simp [bitLenFuel]
        · have hqpos : 0 < (m + 1) / 2 := Nat.pos_of_ne_zero hq
          have hqle : (m + 1) / 2 ≤ f := by omega
          obtain ⟨hL, hlow, hhigh⟩ := ih ((m + 1) / 2) hqle hqpos
          simp only [bitLenFuel]
          have hL1 : bitLenFuel f ((m + 1) / 2) - 1 + 1 = bitLenFuel f ((m + 1) / 2) := by
            omega
          have h2L := pow_succ 2 (bitLenFuel f ((m + 1) / 2) - 1)
          rw [hL1] at h2L
          have h2S := pow_succ 2 (bitLenFuel f ((m + 1) / 2))
          refine ⟨by omega, ?_, ?_⟩
          · simp only [Nat.add_sub_cancel]
            omega
          · omega

theorem bitLen_spec (x : Nat) (hx : 0 < x) :
    0 < bitLen x ∧ 2 ^ (bitLen x - 1) ≤ x ∧ x < 2 ^ bitLen x :=
  bitLenFuel_spec x x le_rfl hx

/-- For a positive u64 value, the source's `num_bits - leading_zeros - 1`
computes the floor base-2 logarithm. -/
theorem log2_floor_eq_log (x : Nat) (h0 : 0 < x) (h64 : x < 2 ^ 64) :
    log2_floor x = some (Nat.log 2 x) := by
  obtain ⟨hpos, hlow, hhigh⟩ := bitLen_spec x h0
  have hble : bitLen x ≤ 64 := by
    by_contra hgt
    push_neg at hgt
    have : (2 : Nat) ^ 64 ≤ 2 ^ (bitLen x - 1) :=
      Nat.pow_le_pow_right (by norm_num) (by omega)
    omega
  have hlog : Nat.log 2 x = bitLen x - 1 := by
    refine Nat.log_eq_of_pow_le_of_lt_pow hlow ?_
    have hc : bitLen x - 1 + 1 = bitLen x := by omega
    rw [hc]
    exact hhigh
  simp only [log2_floor, leading_zeros, num_bits, if_pos h0]
  rw [hlog]
  congr 1
  omega

/-- Claim C6 counterexample: at requested top-k 5 the code sizes the sketch
at `log2_floor(5).max(1) + 2 = 4` bits, while the claimed
`ceil (log2 5) + 2` is 5. -/
theorem heavy_hitter_sizing_ceil_counterexample :
    (HeavyHitter.new 5).map (fun hh => hh.sketch.lg2_k) = some 4 ∧
    Nat.clog 2 5 + 2 = 5 ∧
    (HeavyHitter.new 5).map (fun hh => hh.sketch.lg2_k) ≠
      some (Nat.clog 2 5 + 2) := by
  have h1 : (HeavyHitter.new 5).map (fun hh => hh.sketch.lg2_k) = some 4 := rfl
  have h2 : Nat.clog 2 5 = 3 := by
    have hle : Nat.clog 2 5 ≤ 3 :=
      (Nat.le_pow_iff_clog_le (by norm_num)).mp (by norm_num)
    have hge : ¬ Nat.clog 2 5 ≤ 2 := by
      intro hc
      have := (Nat.le_pow_iff_clog_le (b := 2) (by norm_num)).mpr hc
      norm_num at this
    omega
  refine ⟨h1, by rw [h2], ?_⟩
  rw [h1, h2]
  simp

/-- Claim C6 (amended): for every requested top-k `k > 0` (a u64 value, so
`k < 2 ^ 64`), the HeavyHitter reducer constructs its HhSketch with
configuration parameter `max (floor (log2 k)) 1 + 2` bits — floor-based with
a one-bit minimum, not `ceil (log2 k) + 2` — and each line read by the
reducer is exactly one observation of weight 1. -/
theorem heavy_hitter_sizing (k : Nat) (h0 : 0 < k) (h64 : k < 2 ^ 64) :
    HeavyHitter.new k =
      some { sketch := HhSketch.new (max (Nat.log 2 k) 1 + 2), k := k } ∧
    ∀ (pol : EnginePolicy) (hh : HeavyHitter) (line : Line),
      (HeavyHitter.read_line pol hh line).sketch.inner.updates =
        hh.sketch.inner.updates ++ [(handAddr hh.sketch line, 1)] := by
  constructor
  · simp [HeavyHitter.new, log2_floor_eq_log k h0 h64]
  · intro pol hh line
    exact update_updates_log pol hh.sketch line 1

/-- Claim C6 witness: the amended sizing law applied at k = 5, whose floor
log2 is 2, giving a 4-bit sketch. -/
theorem heavy_hitter_sizing_witness :
    (0 < 5 ∧ (5 : Nat) < 2 ^ 64) ∧
    HeavyHitter.new 5 =
      some { sketch := HhSketch.new (max (Nat.log 2 5) 1 + 2), k := 5 } :=
  ⟨⟨by norm_num, by norm_num⟩, (heavy_hitter_sizing 5 (by norm_num) (by norm_num)).1⟩

/-- Replaying rows whose addresses all resolve through the other sketch's
interning table is a plain left fold of weighted updates. -/
theorem foldlM_rows_resolved (pol : EnginePolicy) (other : HhSketch) :
    ∀ (rows : List (Nat × Nat × Nat)) (resolved : List (Line × Nat)) (self : HhSketch),
      List.Forall₂ (fun (row : Nat × Nat × Nat) (kr : Line × Nat) =>
        internAddrGet other.intern row.1 = some kr.1 ∧ kr.2 = row.2.1) rows resolved →
      rows.foldlM (fun acc row =>
          (internAddrGet other.intern row.1).map
            (fun key => HhSketch.update pol acc key row.2.1))
          self =
        some (resolved.foldl
          (fun acc kr => HhSketch.update pol acc kr.1 kr.2) self) := by
  intro rows
  induction rows with
  | nil =>
      intro resolved self h
      cases h
      rfl
  | cons row rest ih =>
      intro resolved self h
      cases h with
      | cons hhead htail =>
          obtain ⟨hget, hw⟩ := hhead
          rename_i kr krs
          simp only [List.foldlM_cons, hget, Option.map_some', Option.bind_eq_bind,
            Option.some_bind]
          rw [← hw]
          exact ih krs (HhSketch.update pol self kr.1 kr.2) htail

/-- A fold of interning updates raises the engine total weight by exactly
the sum of the replayed weights. -/
theorem foldl_update_total_weight (pol : EnginePolicy) (resolved : List (Line × Nat)) :
    ∀ self : HhSketch,
      (resolved.foldl (fun acc kr => HhSketch.update pol acc kr.1 kr.2)
          self).inner.total_weight =
        self.inner.total_weight + (resolved.map Prod.snd).sum := by
  induction resolved with
  | nil => intro self; simp
  | cons kr rest ih =>
      intro self
      rw [List.foldl_cons, ih, update_total_weight]
      simp only [List.map_cons, List.sum_cons]
      omega

/-- Claim C7 counterexample: under an engine policy that raises the error
offset during replay (as decrement-and-evict purges do when they decrement
counters), merging a one-row sketch with offset 2 into a sketch with offset
1 sets the offset to 8 — the post-replay self offset (1 + 5) plus other's
2 — and not to the pre-merge sum 1 + 2 = 3, refuting the claim that the
offset is set to the sum of the two engines' offsets. -/
theorem hh_merge_offset_counterexample :
    (HhSketch.merge bumpOffsetPolicy ⟨⟨[], [], 10, 1⟩, [], 0, 3⟩
        ⟨⟨[], [(5, 2, 4)], 20, 2⟩, [(5, [9])], 6, 3⟩).map
      (fun s => s.inner.offset) = some 8 ∧
    (⟨[], [], 10, 1⟩ : HhEngine).offset +
      (⟨[], [(5, 2, 4)], 20, 2⟩ : HhEngine).offset = 3 ∧
    (8 : Nat) ≠ 3 :=
  ⟨rfl, rfl, by decide⟩

/-- Claim C7 (amended): for every engine policy, `merge other` performs
exactly: for each row currently retained by the other engine, one weighted
update of self with the row's dereferenced key and the row's lower bound as
the weight; then self's engine total weight is set to the sum of the two
engines' pre-merge total weights — captured before the replay, whose
updates inflate the running total by the sum of the replayed lower bounds —
and its offset to the sum of self's offset as it stands after the replay
(which purges during the replay may have raised) and other's offset.  The
hypothesis resolves each retained row's address through the other sketch's
interning table, which the source dereferences without checking. -/
theorem hh_merge_replays_rows (pol : EnginePolicy) (self other : HhSketch)
    (resolved : List (Line × Nat))
    (hres : List.Forall₂ (fun (row : Nat × Nat × Nat) (kr : Line × Nat) =>
        internAddrGet other.intern row.1 = some kr.1 ∧ kr.2 = row.2.1)
      other.inner.rows resolved) :
    HhSketch.merge pol self other =
      some { (resolved.foldl (fun acc kr => HhSketch.update pol acc kr.1 kr.2)
          self) with
        inner :=
          (resolved.foldl (fun acc kr => HhSketch.update pol acc kr.1 kr.2)
              self).inner.set_weights
            (self.inner.total_weight + other.inner.total_weight)
            ((resolved.foldl (fun acc kr => HhSketch.update pol acc kr.1 kr.2)
                self).inner.offset + other.inner.offset) } ∧
    (resolved.foldl (fun acc kr => HhSketch.update pol acc kr.1 kr.2)
        self).inner.total_weight =
      self.inner.total_weight + (resolved.map Prod.snd).sum := by
  constructor
  · unfold HhSketch.merge
    rw [foldlM_rows_resolved pol other other.inner.rows resolved self hres]
    simp only [Option.map_some']
  · exact foldl_update_total_weight pol resolved self

/-- Claim C7 witness: under the never-evicting policy, merging a one-row
sketch (row lower bound 2, total weight 20, offset 2) into a sketch with
total weight 10 and offset 1 yields total weight 30 and offset 3. -/
theorem hh_merge_replays_rows_witness :
    (HhSketch.merge idlePolicy ⟨⟨[], [], 10, 1⟩, [], 0, 3⟩
        ⟨⟨[], [(5, 2, 4)], 20, 2⟩, [(5, [9])], 6, 3⟩).map
      (fun s => (s.inner.total_weight, s.inner.offset)) = some (30, 3) := by
  rw [(hh_merge_replays_rows idlePolicy ⟨⟨[], [], 10, 1⟩, [], 0, 3⟩
    ⟨⟨[], [(5, 2, 4)], 20, 2⟩, [(5, [9])], 6, 3⟩ [([9], 2)]
    (List.Forall₂.cons ⟨rfl, rfl⟩ List.Forall₂.nil)).1]
  rfl

/-- A byte absent from a line is never found by memchr. -/
theorem memchr_eq_none_iff (c : Nat) :
    ∀ line : Line, memchr c line = none ↔ c ∉ line := by
  intro line
  induction line with
  | nil => simp [memchr]
  | cons b rest ih =>
      by_cases hb : b = c
      · subst hb
        simp [memchr]
      · simp only [memchr, if_neg hb, Option.map_eq_none', List.mem_cons, ih]
        constructor
        · intro h hc
          rcases hc with hc | hc
          · exact hb hc.symm
          · exact h hc
        · intro h hc
          exact h (Or.inr hc)

/-- Memchr finds the first occurrence: on `pre ++ c :: post` with `c` absent
from `pre`, it returns the length of `pre`. -/
theorem memchr_first (c : Nat) :
    ∀ (pre post : Line), c ∉ pre →
      memchr c (pre ++ c :: post) = some pre.length := by
  intro pre
  induction pre with
  | nil => intro post _; simp [memchr]
  | cons b rest ih =>
      intro post h
      have hb : b ≠ c := by
        intro hbc
        exact h (by simp [hbc])
      have hrest : c ∉ rest := fun hc => h (List.mem_cons_of_mem b hc)
      simp [memchr, hb, ih post hrest]

/-- Dropping one past the delimiter of `pre ++ c :: post` leaves `post`. -/
theorem drop_past_delim (c : Nat) (pre post : Line) :
    (pre ++ c :: post).drop (pre.length + 1) = post := by
  have h1 : pre ++ c :: post = (pre ++ [c]) ++ post := by simp
  have h2 : (pre ++ [c]).length = pre.length + 1 := by simp
  rw [h1, ← h2, List.drop_left]

/-- Updating all entries matching a key rewrites that key's looked-up value
through the update function. -/
theorem alookup_map_update {α : Type} (l : List (Line × α)) (key : Line) (f : α → α) :
    alookup (l.map (fun e => if e.1 = key then (e.1, f e.2) else e)) key =
      (alookup l key).map f := by
  induction l with
  | nil => rfl
  | cons e rest ih =>
      by_cases he : e.1 = key
      · unfold alookup
        rw [List.map_cons, if_pos he,
          List.find?_cons_of_pos _ (by simpa using he),
          List.find?_cons_of_pos _ (by simpa using he)]
        simp
      · unfold alookup
        rw [List.map_cons, if_neg he,
          List.find?_cons_of_neg _ (by simpa using he),
          List.find?_cons_of_neg _ (by simpa using he)]
        exact ih

/-- Updating all entries matching a key leaves every other key's looked-up
value unchanged. -/
theorem alookup_map_update_ne {α : Type} (l : List (Line × α)) (key k2 : Line)
    (f : α → α) (hne : k2 ≠ key) :
    alookup (l.map (fun e => if e.1 = key then (e.1, f e.2) else e)) k2 =
      alookup l k2 := by
  induction l with
  | nil => rfl
  | cons e rest ih =>
      by_cases he : e.1 = key
      · have hnot : ¬ e.1 = k2 := by
          rw [he]
          exact fun hc => hne hc.symm
        unfold alookup
        rw [List.map_cons, if_pos he,
          List.find?_cons_of_neg _ (by simpa using hnot),
          List.find?_cons_of_neg _ (by simpa using hnot)]
        exact ih
      · by_cases hk : e.1 = k2
        · unfold alookup
          rw [List.map_cons, if_neg he,
            List.find?_cons_of_pos _ (by simpa using hk),
            List.find?_cons_of_pos _ (by simpa using hk)]
        · unfold alookup
          rw [List.map_cons, if_neg he,
            List.find?_cons_of_neg _ (by simpa using hk),
            List.find?_cons_of_neg _ (by simpa using hk)]
          exact ih

/-- Appending a fresh entry for an absent key makes it the looked-up value. -/
theorem alookup_append_single {α : Type} (l : List (Line × α)) (key : Line) (x : α)
    (h : alookup l key = none) : alookup (l ++ [(key, x)]) key = some x := by
  induction l with
  | nil => simp [alookup]
  | cons e rest ih =>
      by_cases he : e.1 = key
      · exfalso
        unfold alookup at h
        rw [List.find?_cons_of_pos _ (by simpa using he)] at h
        simp at h
      · unfold alookup at h ⊢
        rw [List.find?_cons_of_neg _ (by simpa using he)] at h
        rw [List.cons_append, List.find?_cons_of_neg _ (by simpa using he)]
        exact ih h

/-- Appending an entry for one key leaves every other key's lookup alone. -/
theorem alookup_append_single_ne {α : Type} (l : List (Line × α)) (key k2 : Line)
    (x : α) (hne : k2 ≠ key) : alookup (l ++ [(key, x)]) k2 = alookup l k2 := by
  induction l with
  | nil =>
      have : ¬ key = k2 := fun hc => hne hc.symm
      simp [alookup, this]
  | cons e rest ih =>
      by_cases hk : e.1 = k2
      · unfold alookup
        rw [List.cons_append, List.find?_cons_of_pos _ (by simpa using hk),
          List.find?_cons_of_pos _ (by simpa using hk)]
      · unfold alookup at ih ⊢
        rw [List.cons_append, List.find?_cons_of_neg _ (by simpa using hk),
          List.find?_cons_of_neg _ (by simpa using hk)]
        exact ih

/-- Claim C8: in keyed mode, a line containing no space character is a fatal
input-format error — both keyed reducers abort the run rather than silently
dropping the line — and for a line containing a space, the key is the prefix
before the first space and the remainder after it is folded into exactly
that key's per-key reducer, leaving every other key's reducer untouched. -/
theorem keyed_mode_delimiter :
    (∀ (st : KeyedCounter) (st2 : KeyedMerger) (line : Line), (32 : Nat) ∉ line →
        st.read_line line = none ∧ st2.read_line line = .crashed) ∧
    (∀ (st : KeyedCounter) (pre post : Line), (32 : Nat) ∉ pre →
        ∃ st2, st.read_line (pre ++ 32 :: post) = some st2 ∧
          alookup st2.sketches pre =
            some (((alookup st.sketches pre).getD Counter.default).read_line post) ∧
          ∀ k2, k2 ≠ pre → alookup st2.sketches k2 = alookup st.sketches k2) ∧
    (∀ (st : KeyedMerger) (pre post : Line), (32 : Nat) ∉ pre →
        (∀ m, Merger.read_line ((alookup st.sketches pre).getD Merger.default) post =
            .ok m →
          ∃ st2, st.read_line (pre ++ 32 :: post) = .ok st2 ∧
            alookup st2.sketches pre = some m ∧
            ∀ k2, k2 ≠ pre → alookup st2.sketches k2 = alookup st.sketches k2) ∧
        (Merger.read_line ((alookup st.sketches pre).getD Merger.default) post =
            .crashed →
          st.read_line (pre ++ 32 :: post) = .crashed)) := by
  refine ⟨?_, ?_, ?_⟩
  · intro st st2 line h
    have hnone := (memchr_eq_none_iff 32 line).mpr h
    exact ⟨by simp [KeyedCounter.read_line, hnone], by simp [KeyedMerger.read_line, hnone]⟩
  · intro st pre post hpre
    have hmem := memchr_first 32 pre post hpre
    have htake := List.take_left pre (32 :: post)
    have hdrop := drop_past_delim 32 pre post
    simp only [KeyedCounter.read_line, hmem, htake, hdrop]
    by_cases hs : (alookup st.sketches pre).isSome
    · rw [if_pos hs]
      refine ⟨⟨st.sketches.map
          (fun e => if e.1 = pre then (e.1, e.2.read_line post) else e)⟩, rfl, ?_, ?_⟩
      · show alookup (st.sketches.map
            (fun e => if e.1 = pre then (e.1, e.2.read_line post) else e)) pre =
          some (((alookup st.sketches pre).getD Counter.default).read_line post)
        rw [alookup_map_update st.sketches pre (fun c => c.read_line post)]
        obtain ⟨c, hc⟩ := Option.isSome_iff_exists.mp hs
        rw [hc]
        rfl
      · intro k2 hk2
        show alookup (st.sketches.map
            (fun e => if e.1 = pre then (e.1, e.2.read_line post) else e)) k2 =
          alookup st.sketches k2
        exact alookup_map_update_ne st.sketches pre k2 (fun c => c.read_line post) hk2
    · rw [if_neg hs]
      have hnone : alookup st.sketches pre = none :=
        Option.not_isSome_iff_eq_none.mp hs
      refine ⟨⟨(st.sketches ++ [(pre, Counter.default)]).map
          (fun e => if e.1 = pre then (e.1, e.2.read_line post) else e)⟩, rfl, ?_, ?_⟩
      · show alookup ((st.sketches ++ [(pre, Counter.default)]).map
            (fun e => if e.1 = pre then (e.1, e.2.read_line post) else e)) pre =
          some (((alookup st.sketches pre).getD Counter.default).read_line post)
        rw [alookup_map_update (st.sketches ++ [(pre, Counter.default)]) pre
            (fun c => c.read_line post),
          alookup_append_single _ _ _ hnone, hnone]
        rfl
      · intro k2 hk2
        show alookup ((st.sketches ++ [(pre, Counter.default)]).map
            (fun e => if e.1 = pre then (e.1, e.2.read_line post) else e)) k2 =
          alookup st.sketches k2
        rw [alookup_map_update_ne (st.sketches ++ [(pre, Counter.default)]) pre k2
            (fun c => c.read_line post) hk2,
          alookup_append_single_ne _ _ _ _ hk2]
  · intro st pre post hpre
    have hmem := memchr_first 32 pre post hpre
    have htake := List.take_left pre (32 :: post)
    have hdrop := drop_past_delim 32 pre post
    by_cases hs : (alookup st.sketches pre).isSome
    · constructor
      · intro m hok
        refine ⟨⟨st.sketches.map (fun e => if e.1 = pre then (e.1, m) else e)⟩, ?_, ?_, ?_⟩
        · simp only [KeyedMerger.read_line, hmem, htake, hdrop, if_pos hs, hok]
        · show alookup (st.sketches.map
              (fun e => if e.1 = pre then (e.1, m) else e)) pre = some m
          rw [alookup_map_update st.sketches pre (fun _ => m)]
          obtain ⟨c, hc⟩ := Option.isSome_iff_exists.mp hs
          rw [hc]
          rfl
        · intro k2 hk2
          show alookup (st.sketches.map
              (fun e => if e.1 = pre then (e.1, m) else e)) k2 = alookup st.sketches k2
          exact alookup_map_update_ne st.sketches pre k2 (fun _ => m) hk2
      · intro hcrash
        simp only [KeyedMerger.read_line, hmem, htake, hdrop, if_pos hs, hcrash]
    · have hnone : alookup st.sketches pre = none :=
        Option.not_isSome_iff_eq_none.mp hs
      have hlook : alookup (st.sketches ++ [(pre, Merger.default)]) pre =
          some Merger.default := alookup_append_single _ _ _ hnone
      constructor
      · intro m hok
        rw [hnone] at hok
        simp only [Option.getD_none] at hok
        refine ⟨⟨(st.sketches ++ [(pre, Merger.default)]).map
            (fun e => if e.1 = pre then (e.1, m) else e)⟩, ?_, ?_, ?_⟩
        · simp only [KeyedMerger.read_line, hmem, htake, hdrop, if_neg hs, hlook,
            Option.getD_some, hok]
        · show alookup ((st.sketches ++ [(pre, Merger.default)]).map
              (fun e => if e.1 = pre then (e.1, m) else e)) pre = some m
          rw [alookup_map_update (st.sketches ++ [(pre, Merger.default)]) pre
              (fun _ => m),
            hlook]
          rfl
        · intro k2 hk2
          show alookup ((st.sketches ++ [(pre, Merger.default)]).map
              (fun e => if e.1 = pre then (e.1, m) else e)) k2 = alookup st.sketches k2
          rw [alookup_map_update_ne (st.sketches ++ [(pre, Merger.default)]) pre k2
              (fun _ => m) hk2,
            alookup_append_single_ne _ _ _ _ hk2]
      · intro hcrash
        rw [hnone] at hcrash
        simp only [Option.getD_none] at hcrash
        simp only [KeyedMerger.read_line, hmem, htake, hdrop, if_neg hs, hlook,
          Option.getD_some, hcrash]

/-- Claim C8 witness: on the empty keyed-counter state, the spaceless line
`[107]` is fatal, while the line `[107, 32, 5]` is folded under key `[107]`. -/
theorem keyed_mode_delimiter_witness :
    KeyedCounter.read_line ⟨[]⟩ [107] = none ∧
    KeyedCounter.read_line ⟨[]⟩ [107, 32, 5] ≠ none := by
  constructor
  · exact (keyed_mode_delimiter.1 ⟨[]⟩ ⟨[]⟩ [107] (by decide)).1
  · obtain ⟨st2, h1, -, -⟩ := keyed_mode_delimiter.2.1 ⟨[]⟩ [107] [5] (by decide)
    have hline : ([107] ++ 32 :: [5] : Line) = [107, 32, 5] := rfl
    rw [hline] at h1
    rw [h1]
    simp

/-- Claim C5 (code bug): on the structurally invalid buffer `[9, 9, 9, 9]`
the CPC, static Theta and KLL wrappers surface a typed decode error, but the
HLL wrapper — whose `deserialize` returns `Self` with no `Result`, so a C++
decode exception crossing the cxx bridge terminates the process, as the
source's own TODO comment admits — crashes instead of returning a typed
error. -/
theorem hll_deserialize_crashes_on_invalid :
    HLLSketch.deserialize [9, 9, 9, 9] = .crashed ∧
    CpcSketch.deserialize [9, 9, 9, 9] = .error (.CXXError "truncated") ∧
    StaticThetaSketch.deserialize [9, 9, 9, 9] = .error (.CXXError "truncated") ∧
    KllFloatSketch.deserialize [9, 9, 9, 9] = .error (.CXXError "bad preamble") :=
  ⟨rfl, rfl, rfl, rfl⟩

theorem insertDistinct_toFinset (acc : List Line) (v : Line) :
    (insertDistinct acc v).toFinset = insert v acc.toFinset := by
  unfold insertDistinct
  by_cases h : v ∈ acc
  · rw [if_pos h]
    exact (Finset.insert_eq_self.mpr (List.mem_toFinset.mpr h)).symm
  · rw [if_neg h, List.toFinset_append]
    ext x
    simp
    tauto

theorem insertDistinct_nodup (acc : List Line) (v : Line) (h : acc.Nodup) :
    (insertDistinct acc v).Nodup := by
  unfold insertDistinct
  by_cases hv : v ∈ acc
  · rwa [if_pos hv]
  · rw [if_neg hv, List.nodup_append]
    refine ⟨h, List.nodup_singleton v, ?_⟩
    intro x hx hxv
    simp only [List.mem_singleton] at hxv
    subst hxv
    exact hv hx

theorem foldl_insertDistinct_toFinset (vs : List Line) :
    ∀ acc : List Line,
      (vs.foldl insertDistinct acc).toFinset = acc.toFinset ∪ vs.toFinset := by
  induction vs with
  | nil => intro acc; simp
  | cons v rest ih =>
      intro acc
      rw [List.foldl_cons, ih, insertDistinct_toFinset]
      ext x
      simp
      try tauto

theorem foldl_insertDistinct_nodup (vs : List Line) :
    ∀ acc : List Line, acc.Nodup → (vs.foldl insertDistinct acc).Nodup := by
  induction vs with
  | nil => intro acc h; exact h
  | cons v rest ih =>
      intro acc h
      rw [List.foldl_cons]
      exact ih _ (insertDistinct_nodup acc v h)

theorem runCounter_fold_inner (lines : List Line) :
    ∀ c : Counter, (lines.foldl Counter.read_line c).sketch.inner =
      lines.foldl insertDistinct c.sketch.inner := by
  induction lines with
  | nil => intro c; rfl
  | cons l rest ih =>
      intro c
      rw [List.foldl_cons, List.foldl_cons, ih]
      rfl

theorem runCounter_spec (lines : List Line) :
    (runCounter lines).sketch.inner.Nodup ∧
    (runCounter lines).sketch.inner.toFinset = lines.toFinset := by
  unfold runCounter
  rw [runCounter_fold_inner]
  constructor
  · exact foldl_insertDistinct_nodup lines _ (by simp [Counter.default, CpcSketch.new])
  · rw [foldl_insertDistinct_toFinset]
    simp [Counter.default, CpcSketch.new]

theorem counter_deserialize_serialize (c : Counter) :
    Counter.deserialize (Counter.serialize c) = .ok c := by
  unfold Counter.deserialize Counter.serialize CpcSketch.serialize CpcSketch.deserialize
  rw [decodeLines_encodeLines]

theorem runMerger_serialized (counters : List Counter) :
    ∀ m : Merger,
      (counters.map Counter.serialize).foldl
        (fun (acc : ProcessResult Merger) line =>
          match acc with
          | ProcessResult.crashed => ProcessResult.crashed
          | ProcessResult.ok mm => mm.read_line line)
        (ProcessResult.ok m) =
      .ok ⟨⟨counters.foldl (fun a c => c.sketch.inner.foldl insertDistinct a)
            m.sketch.inner⟩⟩ := by
  induction counters with
  | nil => intro m; rfl
  | cons c rest ih =>
      intro m
      rw [List.map_cons, List.foldl_cons]
      have hstep : (match (ProcessResult.ok m : ProcessResult Merger) with
          | ProcessResult.crashed => ProcessResult.crashed
          | ProcessResult.ok mm => mm.read_line (Counter.serialize c)) =
          ProcessResult.ok (Merger.mk (m.sketch.merge c.sketch)) := by
        show m.read_line (Counter.serialize c) = .ok ⟨m.sketch.merge c.sketch⟩
        unfold Merger.read_line
        rw [counter_deserialize_serialize]
      rw [hstep]
      exact ih ⟨m.sketch.merge c.sketch⟩

theorem merged_fold_spec (chunks : List (List Line)) :
    ∀ acc : List Line, acc.Nodup →
      ((chunks.map runCounter).foldl
          (fun a c => c.sketch.inner.foldl insertDistinct a) acc).Nodup ∧
      ((chunks.map runCounter).foldl
          (fun a c => c.sketch.inner.foldl insertDistinct a) acc).toFinset =
        acc.toFinset ∪ chunks.flatten.toFinset := by
  induction chunks with
  | nil => intro acc h; simp [h]
  | cons chunk rest ih =>
      intro acc h
      rw [List.map_cons, List.foldl_cons]
      have h1 : ((runCounter chunk).sketch.inner.foldl insertDistinct acc).Nodup :=
        foldl_insertDistinct_nodup _ _ h
      obtain ⟨hn, ht⟩ := ih _ h1
      refine ⟨hn, ?_⟩
      rw [ht, foldl_insertDistinct_toFinset, (runCounter_spec chunk).2]
      have hjoin : (chunk :: rest).flatten = chunk ++ rest.flatten := rfl
      rw [hjoin, List.toFinset_append]
      ext x
      simp
      try tauto

/-- Claim C1: distributed-equivalence law — for every line stream and every
partition of it into arbitrary chunks (uneven and non-contiguous splits
allowed: any chunk list whose concatenation is a permutation of the
stream), running an independent Counter over each chunk, serializing each
result, feeding all serialized outputs into one Merger, and taking the
Merger's counter yields exactly the estimate of a single Counter run over
the whole stream in one pass (the idealized exact engine turns the spec's
within-estimator-error equivalence into equality of the estimates). -/
theorem distributed_equivalence (lines : List Line) (chunks : List (List Line))
    (hpart : chunks.flatten.Perm lines) :
    ∃ m : Merger,
      runMerger (chunks.map (fun c => (runCounter c).serialize)) = .ok m ∧
      m.counter.estimate = (runCounter lines).estimate := by
  refine ⟨⟨⟨(chunks.map runCounter).foldl
      (fun a c => c.sketch.inner.foldl insertDistinct a) []⟩⟩, ?_, ?_⟩
  · have hmap : chunks.map (fun c => (runCounter c).serialize) =
        (chunks.map runCounter).map Counter.serialize := by
      rw [List.map_map]
      rfl
    unfold runMerger
    rw [hmap]
    exact runMerger_serialized (chunks.map runCounter) Merger.default
  · obtain ⟨hn, ht⟩ := merged_fold_spec chunks [] (by simp)
    obtain ⟨hn2, ht2⟩ := runCounter_spec lines
    have hji : chunks.flatten.toFinset = lines.toFinset :=
      List.toFinset_eq_of_perm _ _ hpart
    show ((chunks.map runCounter).foldl
        (fun a c => c.sketch.inner.foldl insertDistinct a) []).length =
      (runCounter lines).sketch.inner.length
    rw [← List.toFinset_card_of_nodup hn, ← List.toFinset_card_of_nodup hn2,
      ht, ht2, hji]
    simp

/-- Claim C1 witness: the stream `[[1], [2], [3], [1]]` split into the
uneven, non-contiguous chunks `[[3]]` and `[[1], [1], [2]]`; merging the two
serialized chunk counters estimates 3 distinct lines, the single-pass
result. -/
theorem distributed_equivalence_witness :
    (([[[3]], [[1], [1], [2]]] : List (List Line)).flatten.Perm
      [[1], [2], [3], [1]]) ∧
    runMerger (([[[3]], [[1], [1], [2]]] : List (List Line)).map
        (fun c => (runCounter c).serialize)) = .ok ⟨⟨[[3], [1], [2]]⟩⟩ ∧
    (Merger.counter ⟨⟨[[3], [1], [2]]⟩⟩).estimate =
      (runCounter [[1], [2], [3], [1]]).estimate := by
  have hperm : (([[[3]], [[1], [1], [2]]] : List (List Line)).flatten.Perm
      [[1], [2], [3], [1]]) := by decide
  obtain ⟨m, h1, h2⟩ :=
    distributed_equivalence [[1], [2], [3], [1]] [[[3]], [[1], [1], [2]]] hperm
  have hcomp : runMerger (([[[3]], [[1], [1], [2]]] : List (List Line)).map
      (fun c => (runCounter c).serialize)) = .ok ⟨⟨[[3], [1], [2]]⟩⟩ := by decide
  refine ⟨hperm, hcomp, ?_⟩
  have hm : (⟨⟨[[3], [1], [2]]⟩⟩ : Merger) = m := by
    have := hcomp.symm.trans h1
    injection this with h
  exact hm.symm ▸ h2

end Dsrs
